import Mathlib

/-!
Formal model of the single-producer/single-consumer lock-free ring buffer
`LockFreeQueue<T, CAPACITY, INDEX_TYPE>` from
`app/src/main/jni/audio-decoder/queue.h`.

Modelling conventions (shallow embedding):

* `cap` stands for the template parameter `CAPACITY` (a `uint32_t`), and
  `w` for the bit width of `INDEX_TYPE` (32 for the default `uint32_t`,
  8 for the `uint8_t` used in wraparound tests).  Machine integers are
  modelled as `ℕ` with explicit reduction `% 2 ^ w` wherever the C++
  value would wrap.
* The two counters are stored as their machine values: every increment
  is followed by `% 2 ^ w`, exactly as `++readCounter` /
  `++writeCounter` wrap on overflow of `INDEX_TYPE` (unsigned overflow
  is defined behaviour, as the source comment notes).
* The element array `T buffer[CAPACITY]` is modelled as a total map
  `ℕ → α`; the code only ever accesses it at `mask(counter) < CAPACITY`
  (proved below).  Caller-side arrays (`T *items`) are modelled as
  `ℤ → α` because the loop counter `int32_t idx` used to index them is a
  signed type: for iteration numbers `≥ 2 ^ 31` the register would hold
  a negative value.  Signed `int32_t` overflow is modelled as
  two's-complement wraparound (the behaviour on the Android targets this
  code is compiled for).
* In `for (int32_t idx = 0; idx < length; ++idx)` the comparison
  `idx < length` converts `idx` to `uint32_t` (usual arithmetic
  conversions), so after `k` increments the test reads `k % 2 ^ 32 <
  length`; starting from 0 with `length < 2 ^ 32` (it is a `uint32_t`)
  the body therefore runs exactly `length` times, iteration `k` seeing
  the signed register value `int32Idx k`.  The loop is rendered as a
  fold over `List.range length`.
* In `size() + length > CAPACITY` the operands are converted to their
  common unsigned type of width `max w 32`, so the sum is reduced
  `% 2 ^ (max w 32)`.  In `length > size()` both operands fit in the
  common type, so that comparison is exact.
-/

/-- State of `LockFreeQueue`: the backing array and the two counters
(stored as their machine values, kept below `2 ^ w` by every
operation). -/
structure LockFreeQueue (α : Type) where
  buffer : ℕ → α
  writeCounter : ℕ
  readCounter : ℕ

namespace LockFreeQueue

variable {α : Type}

/-- `static constexpr bool isPowerOfTwo(uint32_t n) { return (n & (n - 1)) == 0; }`.
For `n = 0` the C++ subtraction `n - 1` wraps to `UINT32_MAX` and the
bitwise AND is `0`; `ℕ` truncated subtraction gives `0 &&& 0 = 0`, the
same result, so the model agrees with the code at every `uint32_t`
input. -/
def isPowerOfTwo (n : ℕ) : Bool := n &&& (n - 1) == 0

/-- `INDEX_TYPE mask(INDEX_TYPE n) const { return n & (CAPACITY - 1); }` -/
def mask (cap n : ℕ) : ℕ := n &&& (cap - 1)

/-- `INDEX_TYPE size() const { return writeCounter - readCounter; }` —
unsigned subtraction of two `w`-bit machine values, written in `ℕ` as
addition of `2 ^ w` followed by reduction. -/
def size (w : ℕ) (q : LockFreeQueue α) : ℕ :=
  (q.writeCounter + 2 ^ w - q.readCounter) % 2 ^ w

/-- Value held by the `int32_t` loop counter `idx` at the start of
iteration `k` (i.e. after `k` increments from `0`), with signed overflow
modelled as two's-complement wraparound: the register's unsigned image
is `k % 2 ^ 32`, read back as negative once it reaches `2 ^ 31`. -/
def int32Idx (k : ℕ) : ℤ :=
  if k % 2 ^ 32 < 2 ^ 31 then ((k % 2 ^ 32 : ℕ) : ℤ)
  else ((k % 2 ^ 32 : ℕ) : ℤ) - 2 ^ 32

/-- One iteration of the `pop_range` loop body:
`items[idx] = buffer[mask(readCounter)]; ++readCounter;` (`k` is the
iteration number, `int32Idx k` the signed index register). -/
def popStep (cap w : ℕ) (s : LockFreeQueue α × (ℤ → α)) (k : ℕ) :
    LockFreeQueue α × (ℤ → α) :=
  ({ s.1 with readCounter := (s.1.readCounter + 1) % 2 ^ w },
   Function.update s.2 (int32Idx k) (s.1.buffer (mask cap s.1.readCounter)))

/-- `bool pop_range(T *items, uint32_t length)`: fail (touching nothing)
if `length > size()`, otherwise run the copy loop and succeed.  Returns
the success flag, the new queue state and the caller's array after the
call. -/
def pop_range (cap w : ℕ) (q : LockFreeQueue α) (items : ℤ → α) (length : ℕ) :
    Bool × LockFreeQueue α × (ℤ → α) :=
  if length > size w q then (false, q, items)
  else (true, (List.range length).foldl (popStep cap w) (q, items))

/-- One iteration of the `push_range` loop body:
`buffer[mask(writeCounter)] = items[idx]; ++writeCounter;`. -/
def pushStep (cap w : ℕ) (items : ℤ → α) (q : LockFreeQueue α) (k : ℕ) :
    LockFreeQueue α :=
  { buffer := Function.update q.buffer (mask cap q.writeCounter) (items (int32Idx k)),
    writeCounter := (q.writeCounter + 1) % 2 ^ w,
    readCounter := q.readCounter }

/-- `bool push_range(T *items, uint32_t length)`: fail (touching
nothing) if `size() + length > CAPACITY` — the sum being computed in the
unsigned common type of width `max w 32`, so it can wrap — otherwise run
the copy loop and succeed. -/
def push_range (cap w : ℕ) (q : LockFreeQueue α) (items : ℤ → α) (length : ℕ) :
    Bool × LockFreeQueue α :=
  if (size w q + length) % 2 ^ (max w 32) > cap then (false, q)
  else (true, (List.range length).foldl (pushStep cap w items) q)

/-- A client call: push a batch of elements, or pop a count of elements. -/
inductive Op (α : Type) where
  | push (xs : List α)
  | pop (n : ℕ)

/-- Length argument passed to the queue by an operation. -/
def opLen : Op α → ℕ
  | .push xs => xs.length
  | .pop n => n

/-- A queue together with the concatenation of all successfully pushed
elements and of all successfully popped elements (ghost history used to
state FIFO and in-flight-count properties). -/
structure Trace (α : Type) where
  q : LockFreeQueue α
  pushed : List α
  popped : List α

/-- The caller's source array holding exactly the elements of `xs`
(slot `i` holds `xs[i]`). -/
def listItems [Inhabited α] (xs : List α) : ℤ → α :=
  fun i => xs.getD i.toNat default

/-- Queue state after one call (failed calls leave the state unchanged,
exactly as in the code). -/
def applyOp (cap w : ℕ) [Inhabited α] (q : LockFreeQueue α) : Op α → LockFreeQueue α
  | .push xs => (push_range cap w q (listItems xs) xs.length).2
  | .pop n => (pop_range cap w q (fun _ => default) n).2.1

/-- One call together with its ghost-history bookkeeping: a successful
push appends its batch to `pushed`, a successful pop appends the data it
delivered (destination slots `0 .. n-1`) to `popped`. -/
def stepOp (cap w : ℕ) [Inhabited α] (t : Trace α) : Op α → Trace α
  | .push xs =>
      let r := push_range cap w t.q (listItems xs) xs.length
      ⟨r.2, if r.1 then t.pushed ++ xs else t.pushed, t.popped⟩
  | .pop n =>
      let r := pop_range cap w t.q (fun _ => default) n
      ⟨r.2.1, t.pushed,
        if r.1 then t.popped ++ (List.range n).map (fun (k : ℕ) => r.2.2 (k : ℤ))
        else t.popped⟩

/-- A freshly constructed queue: both counters zero
(`std::atomic<INDEX_TYPE> writeCounter{0}`, `readCounter{0}`); the
array contents are indeterminate, modelled as `default`. -/
def initQ (α : Type) [Inhabited α] : LockFreeQueue α := ⟨fun _ => default, 0, 0⟩

/-- Run a sequence of calls against a fresh queue, with ghost history. -/
def runOps (cap w : ℕ) [Inhabited α] (ops : List (Op α)) : Trace α :=
  ops.foldl (stepOp cap w) ⟨initQ α, [], []⟩

/-- Exact (non-wrapping) precondition of one call: a push must fit in
the remaining capacity, a pop must not exceed the occupancy. -/
def okOp (cap w : ℕ) (q : LockFreeQueue α) : Op α → Bool
  | .push xs => decide (size w q + xs.length ≤ cap)
  | .pop n => decide (n ≤ size w q)

/-- A call sequence that respects capacity at every step. -/
def okOps (cap w : ℕ) [Inhabited α] : LockFreeQueue α → List (Op α) → Bool
  | _, [] => true
  | q, op :: rest => okOp cap w q op && okOps cap w (applyOp cap w q op) rest

/-- Abstraction of the queue state: the list of in-flight elements in
FIFO order (oldest first), read off the backing array. -/
def contents (cap w : ℕ) (q : LockFreeQueue α) : List α :=
  (List.range (size w q)).map fun k => q.buffer ((q.readCounter + k) % cap)

/-- Machine-level state invariant: both counters are genuine `w`-bit
values and the occupancy does not exceed the capacity. -/
def goodQ (cap w : ℕ) (q : LockFreeQueue α) : Prop :=
  q.readCounter < 2 ^ w ∧ q.writeCounter < 2 ^ w ∧ size w q ≤ cap

/-- The (reachable) state of a default-sized queue of capacity 8 holding
exactly one element: used to exhibit the wrapping-sum defect of the
`push_range` capacity check. -/
def qOne : LockFreeQueue ℕ := (push_range 8 32 (initQ ℕ) (fun _ => 7) 1).2

/-- Ghost accounting invariant: counters are `w`-bit values, no more has
been popped than pushed, and `size` agrees with the number of in-flight
elements modulo `2 ^ w`. -/
def countInv (w : ℕ) (t : Trace α) : Prop :=
  t.q.readCounter < 2 ^ w ∧ t.q.writeCounter < 2 ^ w ∧
    t.popped.length ≤ t.pushed.length ∧
    size w t.q ≡ t.pushed.length - t.popped.length [MOD 2 ^ w]

/-- FIFO refinement invariant: the machine state is well formed and the
pushed history is the popped history followed by the in-flight
elements. -/
def fifoInv (cap w : ℕ) (t : Trace α) : Prop :=
  goodQ cap w t.q ∧ t.pushed = t.popped ++ contents cap w t.q

/-! ### Basic facts -/

theorem size_lt (w : ℕ) (q : LockFreeQueue α) : size w q < 2 ^ w :=
  Nat.mod_lt _ (pow_pos (by norm_num) w)

theorem pushFold_read (cap w : ℕ) (items : ℤ → α) (q : LockFreeQueue α) (n : ℕ) :
    ((List.range n).foldl (pushStep cap w items) q).readCounter = q.readCounter := by
  induction n with
  | zero => simp
  | succ k ih =>
      rw [List.range_succ, List.foldl_append]
      simpa [pushStep] using ih

theorem popFold_write (cap w : ℕ) (q : LockFreeQueue α) (items : ℤ → α) (n : ℕ) :
    ((List.range n).foldl (popStep cap w) (q, items)).1.writeCounter = q.writeCounter := by
  induction n with
  | zero => simp
  | succ k ih =>
      rw [List.range_succ, List.foldl_append]
      simp only [List.foldl_cons, List.foldl_nil]
      simpa [popStep] using ih

theorem popFold_buffer (cap w : ℕ) (q : LockFreeQueue α) (items : ℤ → α) (n : ℕ) :
    ((List.range n).foldl (popStep cap w) (q, items)).1.buffer = q.buffer := by
  induction n with
  | zero => simp
  | succ k ih =>
      rw [List.range_succ, List.foldl_append]
      simp only [List.foldl_cons, List.foldl_nil]
      simpa [popStep] using ih

theorem modDiff_cases (M wc rc : ℕ) (hr : rc < M) (hw : wc < M) :
    (rc ≤ wc ∧ (wc + M - rc) % M = wc - rc) ∨
      (wc < rc ∧ (wc + M - rc) % M = wc + M - rc) := by
  rcases le_or_lt rc wc with h | h
  · refine Or.inl ⟨h, ?_⟩
    have e : wc + M - rc = M + (wc - rc) := by omega
    rw [e, Nat.add_mod_left, Nat.mod_eq_of_lt (by omega)]
  · refine Or.inr ⟨h, ?_⟩
    exact Nat.mod_eq_of_lt (by omega)

theorem modDiff_write (M wc rc n : ℕ) (hr : rc ≤ M) :
    ((wc + n) % M + M - rc) % M = ((wc + M - rc) % M + n) % M := by
  rw [Nat.add_sub_assoc hr, Nat.add_sub_assoc hr, Nat.mod_add_mod, Nat.mod_add_mod]
  congr 1
  omega

theorem modDiff_read (M wc rc n : ℕ) (hr : rc < M) (hw : wc < M)
    (hn : n ≤ (wc + M - rc) % M) :
    (wc + M - (rc + n) % M) % M = (wc + M - rc) % M - n := by
  rcases modDiff_cases M wc rc hr hw with ⟨h, hs⟩ | ⟨h, hs⟩
  · rw [hs] at hn ⊢
    have h1 : (rc + n) % M = rc + n := Nat.mod_eq_of_lt (by omega)
    rw [h1]
    have e : wc + M - (rc + n) = M + (wc - rc - n) := by omega
    rw [e, Nat.add_mod_left, Nat.mod_eq_of_lt (by omega)]
  · rw [hs] at hn ⊢
    rcases lt_or_ge (rc + n) M with h2 | h2
    · have h1 : (rc + n) % M = rc + n := Nat.mod_eq_of_lt h2
      rw [h1]
      have e : wc + M - (rc + n) = wc + M - rc - n := by omega
      rw [e]
      exact Nat.mod_eq_of_lt (by omega)
    · have h1 : (rc + n) % M = rc + n - M := by
        rw [Nat.mod_eq_sub_mod h2]
        exact Nat.mod_eq_of_lt (by omega)
      rw [h1]
      have e : wc + M - (rc + n - M) = M + (wc + M - rc - n) := by omega
      rw [e, Nat.add_mod_left, Nat.mod_eq_of_lt (by omega)]

theorem pushFold_writeCounter (cap w : ℕ) (items : ℤ → α) (q : LockFreeQueue α)
    (hw : q.writeCounter < 2 ^ w) (n : ℕ) :
    ((List.range n).foldl (pushStep cap w items) q).writeCounter =
      (q.writeCounter + n) % 2 ^ w := by
  induction n with
  | zero => simpa using (Nat.mod_eq_of_lt hw).symm
  | succ k ih =>
      rw [List.range_succ, List.foldl_append]
      simp only [List.foldl_cons, List.foldl_nil, pushStep, ih, Nat.mod_add_mod]
      ring_nf

theorem popFold_readCounter (cap w : ℕ) (q : LockFreeQueue α) (items : ℤ → α)
    (hr : q.readCounter < 2 ^ w) (n : ℕ) :
    ((List.range n).foldl (popStep cap w) (q, items)).1.readCounter =
      (q.readCounter + n) % 2 ^ w := by
  induction n with
  | zero => simpa using (Nat.mod_eq_of_lt hr).symm
  | succ k ih =>
      rw [List.range_succ, List.foldl_append]
      simp only [List.foldl_cons, List.foldl_nil, popStep, ih, Nat.mod_add_mod]
      ring_nf

theorem pushFold_size (cap w : ℕ) (items : ℤ → α) (q : LockFreeQueue α)
    (hr : q.readCounter ≤ 2 ^ w) (hw : q.writeCounter < 2 ^ w) (n : ℕ) :
    size w ((List.range n).foldl (pushStep cap w items) q) = (size w q + n) % 2 ^ w := by
  unfold size
  rw [pushFold_writeCounter cap w items q hw n, pushFold_read cap w items q n]
  exact modDiff_write (2 ^ w) q.writeCounter q.readCounter n hr

theorem popFold_size (cap w : ℕ) (q : LockFreeQueue α) (items : ℤ → α)
    (hr : q.readCounter < 2 ^ w) (hw : q.writeCounter < 2 ^ w) (n : ℕ)
    (hn : n ≤ size w q) :
    size w ((List.range n).foldl (popStep cap w) (q, items)).1 = size w q - n := by
  unfold size
  rw [popFold_write cap w q items n, popFold_readCounter cap w q items hr n]
  exact modDiff_read (2 ^ w) q.writeCounter q.readCounter n hr hw hn

theorem size_initQ (w : ℕ) [Inhabited α] : size w (initQ α) = 0 := by
  simp [size, initQ]

/-- Claim C3: `pop_range` fails exactly when more elements are requested
than are present (`length > size()`), and a failed call copies nothing
to the destination and leaves the queue state — counters, backing store
and hence occupancy — completely unchanged. -/
theorem pop_fail_iff_insufficient (cap w : ℕ) (q : LockFreeQueue α)
    (items : ℤ → α) (n : ℕ) :
    ((pop_range cap w q items n).1 = false ↔ n > size w q) ∧
      ((pop_range cap w q items n).1 = false →
        (pop_range cap w q items n).2.1 = q ∧
          (pop_range cap w q items n).2.2 = items) := by
  unfold pop_range
  by_cases h : n > size w q <;> simp [h]

/-- Claim C9: `push_range` never modifies the consumer's counter, and
`pop_range` never modifies the producer's counter and never modifies any
backing-store slot (consumed slots keep their old contents). -/
theorem frame_counters_disjoint (cap w : ℕ) (q : LockFreeQueue α)
    (items jtems : ℤ → α) (m n : ℕ) :
    (push_range cap w q items m).2.readCounter = q.readCounter ∧
      (pop_range cap w q jtems n).2.1.writeCounter = q.writeCounter ∧
      (pop_range cap w q jtems n).2.1.buffer = q.buffer := by
  refine ⟨?_, ?_, ?_⟩
  · unfold push_range
    by_cases h : (size w q + m) % 2 ^ (max w 32) > cap
    · simp [h]
    · simpa [h] using pushFold_read cap w items q m
  · unfold pop_range
    by_cases h : n > size w q
    · simp [h]
    · simpa [h] using popFold_write cap w q jtems n
  · unfold pop_range
    by_cases h : n > size w q
    · simp [h]
    · simpa [h] using popFold_buffer cap w q jtems n

theorem int32Idx_eq_ofNat (k : ℕ) (h : k < 2 ^ 31) : int32Idx k = (k : ℤ) := by
  unfold int32Idx
  have h32 : k % 2 ^ 32 = k := Nat.mod_eq_of_lt (lt_trans h (by norm_num))
  rw [h32, if_pos h]

theorem mask_eq_mod (cap j n : ℕ) (hcap : cap = 2 ^ j) : mask cap n = n % cap := by
  rw [hcap]
  exact Nat.and_pow_two_sub_one_eq_mod n j

theorem add_mod_cancel_lt (cap a i k : ℕ) (hi : i < cap) (hk : k < cap)
    (h : (a + i) % cap = (a + k) % cap) : i = k := by
  have h1 : i ≡ k [MOD cap] :=
    Nat.ModEq.add_left_cancel' a (show a + i ≡ a + k [MOD cap] from h)
  unfold Nat.ModEq at h1
  rwa [Nat.mod_eq_of_lt hi, Nat.mod_eq_of_lt hk] at h1

/-- Relation between the two counters and the occupancy: the write
counter is the read counter plus the occupancy, modulo `2 ^ w`. -/
theorem wc_modeq (w : ℕ) (q : LockFreeQueue α) (hr : q.readCounter < 2 ^ w) :
    q.readCounter + size w q ≡ q.writeCounter [MOD 2 ^ w] := by
  have h1 : q.readCounter + size w q ≡
      q.readCounter + (q.writeCounter + 2 ^ w - q.readCounter) [MOD 2 ^ w] :=
    Nat.ModEq.add_left _ (Nat.mod_modEq _ _)
  have e : q.readCounter + (q.writeCounter + 2 ^ w - q.readCounter) =
      q.writeCounter + 2 ^ w := by omega
  rw [e] at h1
  exact h1.trans (show q.writeCounter + 2 ^ w ≡ q.writeCounter [MOD 2 ^ w] from
    Nat.add_mod_right q.writeCounter (2 ^ w))

theorem pushFold_buffer_eq (cap j w : ℕ) (hcap : cap = 2 ^ j) (hjw : j ≤ w)
    (items : ℤ → α) (q : LockFreeQueue α) (hw : q.writeCounter < 2 ^ w) :
    ∀ n : ℕ, n ≤ cap →
      (∀ i < n, ((List.range n).foldl (pushStep cap w items) q).buffer
          ((q.writeCounter + i) % cap) = items (int32Idx i)) ∧
        (∀ m : ℕ, (∀ i < n, (q.writeCounter + i) % cap ≠ m) →
          ((List.range n).foldl (pushStep cap w items) q).buffer m = q.buffer m) := by
  have hdvd : cap ∣ 2 ^ w := hcap ▸ pow_dvd_pow 2 hjw
  have hpos : 0 < cap := hcap ▸ pow_pos (by norm_num) j
  intro n
  induction n with
  | zero =>
      exact fun _ => ⟨fun i hi => absurd hi (Nat.not_lt_zero i), fun m _ => by simp⟩
  | succ k ih =>
      intro hk1
      obtain ⟨ih1, ih2⟩ := ih (le_of_lt (lt_of_lt_of_le (Nat.lt_succ_self k) hk1))
      have hmaskk : mask cap ((List.range k).foldl (pushStep cap w items) q).writeCounter
          = (q.writeCounter + k) % cap := by
        rw [pushFold_writeCounter cap w items q hw k, mask_eq_mod cap j _ hcap,
          Nat.mod_mod_of_dvd _ hdvd]
      rw [List.range_succ, List.foldl_append]
      simp only [List.foldl_cons, List.foldl_nil, pushStep]
      constructor
      · intro i hi
        rcases Nat.lt_succ_iff_lt_or_eq.mp hi with hik | rfl
        · rw [hmaskk, Function.update_noteq, ih1 i hik]
          intro hEq
          exact absurd (add_mod_cancel_lt cap q.writeCounter i k
            (lt_of_lt_of_le (lt_of_lt_of_le hik (le_of_lt (Nat.lt_succ_self k))) hk1)
            (lt_of_lt_of_le (Nat.lt_succ_self k) hk1) hEq) (Nat.ne_of_lt hik)
        · rw [hmaskk, Function.update_same]
      · intro m hm
        rw [hmaskk, Function.update_noteq (Ne.symm (hm k (Nat.lt_succ_self k)))]
        · exact ih2 m fun i hik => hm i (lt_trans hik (Nat.lt_succ_self k))

theorem popFold_items_eq (cap j w : ℕ) (hcap : cap = 2 ^ j) (hjw : j ≤ w)
    (q : LockFreeQueue α) (items : ℤ → α) (hr : q.readCounter < 2 ^ w) :
    ∀ n : ℕ, n ≤ 2 ^ 31 →
      (∀ i < n, ((List.range n).foldl (popStep cap w) (q, items)).2 (i : ℤ) =
          q.buffer ((q.readCounter + i) % cap)) ∧
        (∀ z : ℤ, (∀ i < n, z ≠ (i : ℤ)) →
          ((List.range n).foldl (popStep cap w) (q, items)).2 z = items z) := by
  have hdvd : cap ∣ 2 ^ w := hcap ▸ pow_dvd_pow 2 hjw
  intro n
  induction n with
  | zero =>
      exact fun _ => ⟨fun i hi => absurd hi (Nat.not_lt_zero i), fun z _ => by simp⟩
  | succ k ih =>
      intro hk1
      obtain ⟨ih1, ih2⟩ := ih (le_of_lt (lt_of_lt_of_le (Nat.lt_succ_self k) hk1))
      have hk31 : k < 2 ^ 31 := lt_of_lt_of_le (Nat.lt_succ_self k) hk1
      have hmaskk : mask cap
          ((List.range k).foldl (popStep cap w) (q, items)).1.readCounter
          = (q.readCounter + k) % cap := by
        rw [popFold_readCounter cap w q items hr k, mask_eq_mod cap j _ hcap,
          Nat.mod_mod_of_dvd _ hdvd]
      rw [List.range_succ, List.foldl_append]
      simp only [List.foldl_cons, List.foldl_nil, popStep]
      constructor
      · intro i hi
        rcases Nat.lt_succ_iff_lt_or_eq.mp hi with hik | rfl
        · rw [int32Idx_eq_ofNat k hk31, Function.update_noteq, ih1 i hik]
          exact fun hEq => absurd (Nat.cast_injective hEq) (Nat.ne_of_lt hik)
        · rw [int32Idx_eq_ofNat i hk31, Function.update_same, popFold_buffer, hmaskk]
      · intro z hz
        rw [int32Idx_eq_ofNat k hk31,
          Function.update_noteq (hz k (Nat.lt_succ_self k))]
        exact ih2 z fun i hik => hz i (lt_trans hik (Nat.lt_succ_self k))

/-- Full success-case characterisation of `push_range` on a well formed
state, for an exact-arithmetic fit `size + n ≤ CAPACITY`. -/
theorem push_success (cap j w : ℕ) (hcap : cap = 2 ^ j) (hjw : j < w)
    (q : LockFreeQueue α) (items : ℤ → α) (n : ℕ)
    (hgood : goodQ cap w q) (hfit : size w q + n ≤ cap) :
    (push_range cap w q items n).1 = true ∧
      (push_range cap w q items n).2.readCounter = q.readCounter ∧
      (push_range cap w q items n).2.writeCounter = (q.writeCounter + n) % 2 ^ w ∧
      size w (push_range cap w q items n).2 = size w q + n ∧
      (∀ i < n, (push_range cap w q items n).2.buffer ((q.writeCounter + i) % cap) =
        items (int32Idx i)) ∧
      (∀ m : ℕ, (∀ i < n, (q.writeCounter + i) % cap ≠ m) →
        (push_range cap w q items n).2.buffer m = q.buffer m) := by
  obtain ⟨hr, hw, hs⟩ := hgood
  have hcw : cap < 2 ^ w := hcap ▸ Nat.pow_lt_pow_right (by norm_num) hjw
  have hchk : (size w q + n) % 2 ^ max w 32 = size w q + n :=
    Nat.mod_eq_of_lt (lt_of_le_of_lt hfit (lt_of_lt_of_le hcw
      (Nat.pow_le_pow_right (by norm_num) (le_max_left w 32))))
  have hnot : ¬((size w q + n) % 2 ^ max w 32 > cap) := by
    rw [hchk]
    omega
  obtain ⟨hb1, hb2⟩ := pushFold_buffer_eq cap j w hcap (le_of_lt hjw) items q hw n
    (by omega)
  unfold push_range
  rw [if_neg hnot]
  refine ⟨rfl, pushFold_read cap w items q n,
    pushFold_writeCounter cap w items q hw n, ?_, hb1, hb2⟩
  rw [pushFold_size cap w items q (le_of_lt hr) hw n]
  exact Nat.mod_eq_of_lt (lt_of_le_of_lt hfit hcw)

/-- Full success-case characterisation of `pop_range` on a well formed
state, for a request `n ≤ size`. -/
theorem pop_success (cap j w : ℕ) (hcap : cap = 2 ^ j) (hjw : j < w) (hj31 : j ≤ 31)
    (q : LockFreeQueue α) (items : ℤ → α) (n : ℕ)
    (hgood : goodQ cap w q) (hn : n ≤ size w q) :
    (pop_range cap w q items n).1 = true ∧
      (pop_range cap w q items n).2.1.buffer = q.buffer ∧
      (pop_range cap w q items n).2.1.writeCounter = q.writeCounter ∧
      (pop_range cap w q items n).2.1.readCounter = (q.readCounter + n) % 2 ^ w ∧
      size w (pop_range cap w q items n).2.1 = size w q - n ∧
      (∀ i < n, (pop_range cap w q items n).2.2 (i : ℤ) =
        q.buffer ((q.readCounter + i) % cap)) ∧
      (∀ z : ℤ, (∀ i < n, z ≠ (i : ℤ)) →
        (pop_range cap w q items n).2.2 z = items z) := by
  obtain ⟨hr, hw, hs⟩ := hgood
  have hc31 : cap ≤ 2 ^ 31 := hcap ▸ Nat.pow_le_pow_right (by norm_num) hj31
  obtain ⟨hi1, hi2⟩ := popFold_items_eq cap j w hcap (le_of_lt hjw) q items hr n
    (by omega)
  unfold pop_range
  rw [if_neg (by omega)]
  exact ⟨rfl, popFold_buffer cap w q items n, popFold_write cap w q items n,
    popFold_readCounter cap w q items hr n,
    popFold_size cap w q items hr hw n hn, hi1, hi2⟩

theorem length_contents (cap w : ℕ) (q : LockFreeQueue α) :
    (contents cap w q).length = size w q := by
  simp [contents]

theorem getElem_contents (cap w : ℕ) (q : LockFreeQueue α) (k : ℕ)
    (h : k < (contents cap w q).length) :
    (contents cap w q)[k] = q.buffer ((q.readCounter + k) % cap) := by
  simp [contents]

theorem contents_initQ (cap w : ℕ) [Inhabited α] : contents cap w (initQ α) = [] := by
  simp [contents, size_initQ]

theorem listItems_coe [Inhabited α] (xs : List α) (i : ℕ) (h : i < xs.length) :
    listItems xs (i : ℤ) = xs[i] := by
  unfold listItems
  have e : ((i : ℤ)).toNat = i := Int.toNat_ofNat i
  rw [e]
  exact List.getD_eq_getElem xs default h

/-- A successful in-capacity push appends its batch to the abstract
in-flight contents. -/
theorem contents_push (cap j w : ℕ) (hcap : cap = 2 ^ j) (hjw : j < w) (hj31 : j ≤ 31)
    [Inhabited α] (q : LockFreeQueue α) (xs : List α)
    (hgood : goodQ cap w q) (hfit : size w q + xs.length ≤ cap) :
    contents cap w (push_range cap w q (listItems xs) xs.length).2 =
      contents cap w q ++ xs := by
  obtain ⟨hok, hrc, hwc, hsz, hbuf, hfr⟩ :=
    push_success cap j w hcap hjw q (listItems xs) xs.length hgood hfit
  have hr := hgood.1
  have hs := hgood.2.2
  have hc31 : cap ≤ 2 ^ 31 := hcap ▸ Nat.pow_le_pow_right (by norm_num) hj31
  have hwcmod : q.readCounter + size w q ≡ q.writeCounter [MOD cap] :=
    (wc_modeq w q hr).of_dvd (hcap ▸ pow_dvd_pow 2 (le_of_lt hjw))
  apply List.ext_getElem
  · rw [length_contents, hsz, List.length_append, length_contents]
  · intro k h1 h2
    have hk : k < size w q + xs.length := by
      rw [length_contents, hsz] at h1
      exact h1
    rw [getElem_contents, hrc]
    rcases lt_or_ge k (size w q) with hks | hks
    · rw [hfr ((q.readCounter + k) % cap) ?noti]
      · have hlen : k < (contents cap w q).length := by
          rw [length_contents]
          exact hks
        rw [List.getElem_append_left hlen, getElem_contents]
      · case noti =>
          intro i hi hEq
          have h3 : (q.readCounter + (size w q + i)) % cap = (q.readCounter + k) % cap := by
            have h4 := hwcmod.add_right i
            have e : q.readCounter + size w q + i = q.readCounter + (size w q + i) := by
              omega
            rw [e] at h4
            exact h4.trans hEq
          have h5 := add_mod_cancel_lt cap q.readCounter (size w q + i) k
            (by omega) (by omega) h3
          omega
    · have hi : k - size w q < xs.length := by omega
      have hEqslot : (q.readCounter + k) % cap =
          (q.writeCounter + (k - size w q)) % cap := by
        have h4 := hwcmod.add_right (k - size w q)
        have e : q.readCounter + size w q + (k - size w q) = q.readCounter + k := by
          omega
        rw [e] at h4
        exact h4
      rw [hEqslot, hbuf (k - size w q) hi,
        int32Idx_eq_ofNat _ (lt_of_lt_of_le (lt_of_lt_of_le hi (by omega)) hc31),
        listItems_coe xs _ hi]
      have hlen2 : (contents cap w q).length ≤ k := by
        rw [length_contents]
        exact hks
      rw [List.getElem_append_right hlen2]
      congr 1
      rw [length_contents]

/-- A successful pop removes the first `n` abstract in-flight elements
and delivers exactly them, in order, in destination slots `0 .. n-1`. -/
theorem contents_pop (cap j w : ℕ) (hcap : cap = 2 ^ j) (hjw : j < w) (hj31 : j ≤ 31)
    (q : LockFreeQueue α) (items : ℤ → α) (n : ℕ)
    (hgood : goodQ cap w q) (hn : n ≤ size w q) :
    contents cap w (pop_range cap w q items n).2.1 = (contents cap w q).drop n ∧
      (List.range n).map (fun (k : ℕ) => (pop_range cap w q items n).2.2 (k : ℤ)) =
        (contents cap w q).take n := by
  obtain ⟨hok, hbuf, hwc, hrc, hsz, hitems, hfr⟩ :=
    pop_success cap j w hcap hjw hj31 q items n hgood hn
  have hdvd : cap ∣ 2 ^ w := hcap ▸ pow_dvd_pow 2 (le_of_lt hjw)
  constructor
  · apply List.ext_getElem
    · rw [length_contents, hsz, List.length_drop, length_contents]
    · intro k h1 h2
      rw [getElem_contents, hbuf, hrc]
      have hslot : ((q.readCounter + n) % 2 ^ w + k) % cap =
          (q.readCounter + (n + k)) % cap := by
        have h3 : (q.readCounter + n) % 2 ^ w ≡ q.readCounter + n [MOD cap] :=
          (Nat.mod_modEq _ _).of_dvd hdvd
        have h4 := h3.add_right k
        refine (show ((q.readCounter + n) % 2 ^ w + k) % cap =
          (q.readCounter + n + k) % cap from h4).trans ?_
        congr 1
        omega
      rw [hslot, List.getElem_drop, getElem_contents]
  · apply List.ext_getElem
    · rw [List.length_map, List.length_range, List.length_take, length_contents]
      omega
    · intro k h1 h2
      have hkn : k < n := by
        rw [List.length_map, List.length_range] at h1
        exact h1
      rw [List.getElem_map, List.getElem_range, hitems k hkn, List.getElem_take,
        getElem_contents]

theorem stepOp_q (cap w : ℕ) [Inhabited α] (t : Trace α) (op : Op α) :
    (stepOp cap w t op).q = applyOp cap w t.q op := by
  cases op <;> rfl

theorem applyOp_good (cap w : ℕ) [Inhabited α] (hcw : cap < 2 ^ w)
    (q : LockFreeQueue α) (op : Op α) (h : goodQ cap w q) :
    goodQ cap w (applyOp cap w q op) := by
  obtain ⟨hr, hw, hs⟩ := h
  have hdvd : 2 ^ w ∣ 2 ^ max w 32 := pow_dvd_pow 2 (le_max_left w 32)
  cases op with
  | push xs =>
      simp only [applyOp, push_range]
      by_cases hc : (size w q + xs.length) % 2 ^ max w 32 > cap
      · simpa [hc] using ⟨hr, hw, hs⟩
      · simp only [hc, if_false]
        refine ⟨?_, ?_, ?_⟩
        · rw [pushFold_read]
          exact hr
        · rw [pushFold_writeCounter cap w _ q hw]
          exact Nat.mod_lt _ (pow_pos (by norm_num) w)
        · rw [pushFold_size cap w _ q (le_of_lt hr) hw]
          rw [← Nat.mod_mod_of_dvd (size w q + xs.length) hdvd]
          have hle : (size w q + xs.length) % 2 ^ max w 32 ≤ cap := le_of_not_lt hc
          rw [Nat.mod_eq_of_lt (lt_of_le_of_lt hle hcw)]
          exact hle
  | pop n =>
      simp only [applyOp, pop_range]
      by_cases hc : n > size w q
      · simpa [hc] using ⟨hr, hw, hs⟩
      · simp only [hc, if_false]
        refine ⟨?_, ?_, ?_⟩
        · rw [popFold_readCounter cap w q _ hr]
          exact Nat.mod_lt _ (pow_pos (by norm_num) w)
        · rw [popFold_write]
          exact hw
        · rw [popFold_size cap w q _ hr hw n (le_of_not_lt hc)]
          omega

theorem runFrom_good (cap w : ℕ) [Inhabited α] (hcw : cap < 2 ^ w) :
    ∀ (ops : List (Op α)) (t : Trace α), goodQ cap w t.q →
      goodQ cap w ((ops.foldl (stepOp cap w) t).q)
  | [], _, h => h
  | op :: rest, t, h => by
      rw [List.foldl_cons]
      exact runFrom_good cap w hcw rest _
        (by rw [stepOp_q]; exact applyOp_good cap w hcw t.q op h)

theorem goodQ_initQ (cap w : ℕ) [Inhabited α] : goodQ cap w (initQ α) := by
  refine ⟨pow_pos (by norm_num) w, pow_pos (by norm_num) w, ?_⟩
  rw [size_initQ]
  exact Nat.zero_le cap

/-- Claim C1: starting from a freshly constructed queue, after every
sequence of `push_range` and `pop_range` calls the occupancy `size()`
(unsigned modular subtraction of the counters) lies in `[0, CAPACITY]`,
including across wraparound of either counter past the maximum of the
index type (the width `w` and the call lengths are arbitrary). -/
theorem occupancy_bounded {α : Type} [Inhabited α] (cap w : ℕ) (hcw : cap < 2 ^ w)
    (ops : List (Op α)) : size w (runOps cap w ops).q ≤ cap :=
  (runFrom_good cap w hcw ops ⟨initQ α, [], []⟩ (goodQ_initQ cap w)).2.2

/-- Witness for C1: an 8-slot-capacity-2 queue with 2-bit counters; the
twelve increments of each counter wrap several times past 3 and the
occupancy stays within `[0, 2]`. -/
theorem occupancy_bounded_witness :
    2 < 2 ^ 2 ∧
      size 2 (runOps 2 2 [Op.push [1, 2], Op.pop 2, Op.push [3, 4], Op.pop 2,
        Op.push [5, 6], Op.pop 2]).q ≤ 2 :=
  ⟨by norm_num,
    occupancy_bounded 2 2 (by norm_num)
      [Op.push [1, 2], Op.pop 2, Op.push [3, 4], Op.pop 2, Op.push [5, 6], Op.pop 2]⟩

/-- Claim C10: on every queue state satisfying the occupancy invariant —
including empty and completely full — `push_range(·, 0)` and
`pop_range(·, 0)` both succeed and change nothing: counters, backing
store and the caller's array are returned exactly as they were. -/
theorem zero_length_ops_succeed (cap w : ℕ) (q : LockFreeQueue α)
    (items jtems : ℤ → α) (h : size w q ≤ cap) :
    push_range cap w q items 0 = (true, q) ∧
      pop_range cap w q jtems 0 = (true, q, jtems) := by
  constructor
  · unfold push_range
    have h1 : (size w q + 0) % 2 ^ max w 32 = size w q := by
      rw [Nat.add_zero]
      exact Nat.mod_eq_of_lt
        (lt_of_lt_of_le (size_lt w q) (Nat.pow_le_pow_right (by norm_num) (le_max_left w 32)))
    rw [h1, if_neg (by omega)]
    simp
  · unfold pop_range
    rw [if_neg (by omega)]
    simp

/-- Witness for C10 at a completely full queue: capacity 4, width 8,
four elements pushed. -/
theorem zero_length_ops_succeed_witness :
    size 8 (runOps 4 8 [Op.push [1, 2, 3, 4]]).q ≤ 4 ∧
      (push_range 4 8 (runOps 4 8 [Op.push [1, 2, 3, 4]]).q (fun _ => 9) 0 =
          (true, (runOps 4 8 [Op.push [1, 2, 3, 4]]).q) ∧
        pop_range 4 8 (runOps 4 8 [Op.push [1, 2, 3, 4]]).q (fun _ => 9) 0 =
          (true, (runOps 4 8 [Op.push [1, 2, 3, 4]]).q, fun _ => 9)) :=
  ⟨by decide, zero_length_ops_succeed 4 8 _ _ _ (by decide)⟩

/-- Claim C7: for a power-of-two capacity the slot for logical position
`n` computed by `mask` is exactly `n mod CAPACITY`, hence strictly below
`CAPACITY`; consequently the buffer writes of `push_range` never touch
any index `≥ CAPACITY` (and `pop_range` reads the buffer only at
`mask` values, never writing it at all). -/
theorem mask_is_mod_capacity {α : Type} (cap j : ℕ) (hcap : cap = 2 ^ j) :
    (∀ n, mask cap n = n % cap) ∧ (∀ n, mask cap n < cap) ∧
      ∀ (w : ℕ) (q : LockFreeQueue α) (items : ℤ → α) (len m : ℕ), cap ≤ m →
        (push_range cap w q items len).2.buffer m = q.buffer m := by
  have hmod : ∀ n, mask cap n = n % cap := by
    intro n
    rw [hcap]
    exact Nat.and_pow_two_sub_one_eq_mod n j
  have hpos : 0 < cap := hcap ▸ pow_pos (by norm_num) j
  have hfr : ∀ (w : ℕ) (items : ℤ → α) (q : LockFreeQueue α) (m : ℕ), cap ≤ m →
      ∀ len, ((List.range len).foldl (pushStep cap w items) q).buffer m = q.buffer m := by
    intro w items q m hm len
    induction len with
    | zero => simp
    | succ k ih =>
        rw [List.range_succ, List.foldl_append]
        simp only [List.foldl_cons, List.foldl_nil, pushStep]
        rw [Function.update_noteq ?hne]
        · exact ih
        · case hne =>
            have hlt : mask cap ((List.range k).foldl (pushStep cap w items) q).writeCounter
                < cap := by
              rw [hmod]
              exact Nat.mod_lt _ hpos
            omega
  refine ⟨hmod, fun n => by rw [hmod]; exact Nat.mod_lt _ hpos, ?_⟩
  intro w q items len m hm
  unfold push_range
  by_cases hc : (size w q + len) % 2 ^ max w 32 > cap
  · simp [hc]
  · simp only [hc, if_false]
    exact hfr w items q m hm len

/-- Witness for C7 at capacity 8. -/
theorem mask_is_mod_capacity_witness :
    (8 : ℕ) = 2 ^ 3 ∧
      ((∀ n, mask 8 n = n % 8) ∧ (∀ n, mask 8 n < 8) ∧
        ∀ (w : ℕ) (q : LockFreeQueue ℕ) (items : ℤ → ℕ) (len m : ℕ), 8 ≤ m →
          (push_range 8 w q items len).2.buffer m = q.buffer m) :=
  ⟨by norm_num, mask_is_mod_capacity 8 3 (by norm_num)⟩

/-- Claim C8 (code bug): the compile-time capacity check accepts `0`,
although `0` is not a (positive) power of two: in
`(n & (n - 1)) == 0` the unsigned subtraction `0 - 1` wraps, giving
`0 & UINT32_MAX == 0`, which holds.  So the `static_assert` does not
reject `CAPACITY = 0`. -/
theorem isPowerOfTwo_zero_accepted :
    isPowerOfTwo 0 = true ∧ ∀ k : ℕ, (0 : ℕ) ≠ 2 ^ k := by
  constructor
  · rfl
  · intro k
    exact (pow_pos (show (0:ℕ) < 2 by norm_num) k).ne

theorem stepOp_fifo (cap j w : ℕ) (hcap : cap = 2 ^ j) (hjw : j < w) (hj31 : j ≤ 31)
    [Inhabited α] (t : Trace α) (op : Op α) (hinv : fifoInv cap w t)
    (hok : okOp cap w t.q op = true) : fifoInv cap w (stepOp cap w t op) := by
  obtain ⟨hgood, hfifo⟩ := hinv
  cases op with
  | push xs =>
      have hfit : size w t.q + xs.length ≤ cap := by
        simpa [okOp] using hok
      obtain ⟨hok1, hrc, hwc, hsz, -, -⟩ :=
        push_success cap j w hcap hjw t.q (listItems xs) xs.length hgood hfit
      have hcont := contents_push cap j w hcap hjw hj31 t.q xs hgood hfit
      constructor
      · refine ⟨?_, ?_, ?_⟩
        · show (push_range cap w t.q (listItems xs) xs.length).2.readCounter < 2 ^ w
          rw [hrc]
          exact hgood.1
        · show (push_range cap w t.q (listItems xs) xs.length).2.writeCounter < 2 ^ w
          rw [hwc]
          exact Nat.mod_lt _ (pow_pos (by norm_num) w)
        · show size w (push_range cap w t.q (listItems xs) xs.length).2 ≤ cap
          rw [hsz]
          exact hfit
      · show (if (push_range cap w t.q (listItems xs) xs.length).1 = true
            then t.pushed ++ xs else t.pushed) =
          t.popped ++ contents cap w (push_range cap w t.q (listItems xs) xs.length).2
        rw [hok1, if_pos rfl, hcont, hfifo, List.append_assoc]
  | pop n =>
      have hn : n ≤ size w t.q := by
        simpa [okOp] using hok
      obtain ⟨hok1, -, hwc, hrc, hsz, -, -⟩ :=
        pop_success cap j w hcap hjw hj31 t.q (fun _ => default) n hgood hn
      obtain ⟨hdrop, htake⟩ :=
        contents_pop cap j w hcap hjw hj31 t.q (fun _ => default) n hgood hn
      constructor
      · refine ⟨?_, ?_, ?_⟩
        · show (pop_range cap w t.q (fun _ => default) n).2.1.readCounter < 2 ^ w
          rw [hrc]
          exact Nat.mod_lt _ (pow_pos (by norm_num) w)
        · show (pop_range cap w t.q (fun _ => default) n).2.1.writeCounter < 2 ^ w
          rw [hwc]
          exact hgood.2.1
        · show size w (pop_range cap w t.q (fun _ => default) n).2.1 ≤ cap
          rw [hsz]
          have h5 := hgood.2.2
          omega
      · show t.pushed =
          (if (pop_range cap w t.q (fun _ => default) n).1 = true
            then t.popped ++ (List.range n).map (fun (k : ℕ) =>
              (pop_range cap w t.q (fun _ => default) n).2.2 (k : ℤ))
            else t.popped) ++
            contents cap w (pop_range cap w t.q (fun _ => default) n).2.1
        rw [hok1, if_pos rfl, htake, hdrop, List.append_assoc,
          List.take_append_drop]
        exact hfifo

theorem fifoInv_init (cap w : ℕ) [Inhabited α] :
    fifoInv cap w (⟨initQ α, [], []⟩ : Trace α) :=
  ⟨goodQ_initQ cap w, by simp [contents_initQ]⟩

theorem runFrom_fifo (cap j w : ℕ) (hcap : cap = 2 ^ j) (hjw : j < w) (hj31 : j ≤ 31)
    [Inhabited α] :
    ∀ (ops : List (Op α)) (t : Trace α), fifoInv cap w t →
      okOps cap w t.q ops = true → fifoInv cap w (ops.foldl (stepOp cap w) t)
  | [], _, h, _ => h
  | op :: rest, t, h, hok => by
      rw [List.foldl_cons]
      simp only [okOps, Bool.and_eq_true] at hok
      exact runFrom_fifo cap j w hcap hjw hj31 rest _
        (stepOp_fifo cap j w hcap hjw hj31 t op h hok.1)
        (by rw [stepOp_q]; exact hok.2)

/-- Claim C4: for every sequence of `push_range` and `pop_range` calls
that respects capacity (so every call succeeds), the queue is a strict
FIFO: the concatenation of all popped elements is a prefix of the
concatenation of all pushed elements, in the same order; in particular,
pushing `[a, b, c]` into an empty (capacity-8, 32-bit-index) queue and
then popping 3 elements yields exactly `[a, b, c]`. -/
theorem fifo_order {α : Type} [Inhabited α] (cap j w : ℕ) (hcap : cap = 2 ^ j)
    (hjw : j < w) (hj31 : j ≤ 31) (ops : List (Op α))
    (hok : okOps cap w (initQ α) ops = true) :
    (∃ rest, (runOps cap w ops).pushed = (runOps cap w ops).popped ++ rest) ∧
      ∀ a b c : α,
        (List.range 3).map (fun (k : ℕ) =>
          (pop_range 8 32 (push_range 8 32 (initQ α) (listItems [a, b, c]) [a, b, c].length).2
            (fun _ => default) 3).2.2 (k : ℤ)) = [a, b, c] := by
  constructor
  · have h := runFrom_fifo cap j w hcap hjw hj31 ops ⟨initQ α, [], []⟩
      (fifoInv_init cap w) hok
    exact ⟨contents cap w (runOps cap w ops).q, h.2⟩
  · intro a b c
    have h0 : goodQ 8 32 (initQ α) := goodQ_initQ 8 32
    have hs0 : size 32 (initQ α) = 0 := size_initQ 32
    have hfit : size 32 (initQ α) + [a, b, c].length ≤ 8 := by
      rw [hs0]
      norm_num
    obtain ⟨hok1, hrc1, hwc1, hsz1, -, -⟩ :=
      push_success 8 3 32 rfl (by norm_num) (initQ α) (listItems [a, b, c])
        [a, b, c].length h0 hfit
    have hcont1 := contents_push 8 3 32 rfl (by norm_num) (by norm_num)
      (initQ α) [a, b, c] h0 hfit
    have hgood1 : goodQ 8 32
        (push_range 8 32 (initQ α) (listItems [a, b, c]) [a, b, c].length).2 := by
      refine ⟨?_, ?_, ?_⟩
      · rw [hrc1]
        exact h0.1
      · rw [hwc1]
        exact Nat.mod_lt _ (by norm_num)
      · rw [hsz1, hs0]
        norm_num
    have hn1 : (3 : ℕ) ≤
        size 32 (push_range 8 32 (initQ α) (listItems [a, b, c]) [a, b, c].length).2 := by
      rw [hsz1, hs0]
      norm_num
    obtain ⟨hokp, -, -, -, -, -, -⟩ :=
      pop_success 8 3 32 rfl (by norm_num) (by norm_num)
        (push_range 8 32 (initQ α) (listItems [a, b, c]) [a, b, c].length).2
        (fun _ => default) 3 hgood1 hn1
    obtain ⟨-, htake⟩ :=
      contents_pop 8 3 32 rfl (by norm_num) (by norm_num)
        (push_range 8 32 (initQ α) (listItems [a, b, c]) [a, b, c].length).2
        (fun _ => default) 3 hgood1 hn1
    have hfin : (List.range 3).map (fun (k : ℕ) =>
        (pop_range 8 32 (push_range 8 32 (initQ α) (listItems [a, b, c]) [a, b, c].length).2
          (fun _ => default) 3).2.2 (k : ℤ)) = [a, b, c] := by
      rw [htake, hcont1, contents_initQ, List.nil_append]
      rfl
    exact hfin

/-- Witness for C4: a concrete capacity-respecting run on an 8-slot
queue with 8-bit counters. -/
theorem fifo_order_witness :
    okOps 8 8 (initQ ℕ) [Op.push [10, 20, 30], Op.pop 3] = true ∧
      ∃ rest, (runOps 8 8 [Op.push [10, 20, 30], Op.pop 3]).pushed =
        (runOps 8 8 [Op.push [10, 20, 30], Op.pop 3]).popped ++ rest :=
  ⟨by decide,
    (fifo_order 8 3 8 rfl (by norm_num) (by norm_num)
      [Op.push [10, 20, 30], Op.pop 3] (by decide)).1⟩

/-- Claim C5: on a well formed state, every `pop_range` with
`count ≤ occupancy` succeeds, copies exactly `count` consecutive logical
elements starting at the read position into destination slots
`0 .. count-1` in order (touching no other destination slot), and
advances the read position by exactly `count`; symmetrically every
in-capacity `push_range` succeeds, copies its `count` source elements
into consecutive logical slots, and advances the write position by
exactly `count`.  The counts range over everything the state invariant
allows — up to `CAPACITY`, which can be `2 ^ 31`, strictly above
`INT32_MAX`, the signed loop counter notwithstanding. -/
theorem range_ops_copy_exact {α : Type} (cap j w : ℕ) (hcap : cap = 2 ^ j)
    (hjw : j < w) (hj31 : j ≤ 31) (q : LockFreeQueue α) (items jtems : ℤ → α)
    (n m : ℕ) (hgood : goodQ cap w q) (hn : n ≤ size w q)
    (hm : size w q + m ≤ cap) :
    ((pop_range cap w q items n).1 = true ∧
      (pop_range cap w q items n).2.1.readCounter = (q.readCounter + n) % 2 ^ w ∧
      size w (pop_range cap w q items n).2.1 = size w q - n ∧
      (∀ i < n, (pop_range cap w q items n).2.2 (i : ℤ) =
        q.buffer ((q.readCounter + i) % cap)) ∧
      (∀ z : ℤ, (∀ i < n, z ≠ (i : ℤ)) → (pop_range cap w q items n).2.2 z = items z)) ∧
    ((push_range cap w q jtems m).1 = true ∧
      (push_range cap w q jtems m).2.writeCounter = (q.writeCounter + m) % 2 ^ w ∧
      size w (push_range cap w q jtems m).2 = size w q + m ∧
      ∀ i < m, (push_range cap w q jtems m).2.buffer ((q.writeCounter + i) % cap) =
        jtems (i : ℤ)) := by
  have hc31 : cap ≤ 2 ^ 31 := hcap ▸ Nat.pow_le_pow_right (by norm_num) hj31
  obtain ⟨hokp, -, -, hrc, hsz, hit, hfrd⟩ :=
    pop_success cap j w hcap hjw hj31 q items n hgood hn
  obtain ⟨hokq, -, hwc, hszp, hbuf, -⟩ :=
    push_success cap j w hcap hjw q jtems m hgood hm
  refine ⟨⟨hokp, hrc, hsz, hit, hfrd⟩, hokq, hwc, hszp, ?_⟩
  intro i hi
  rw [← int32Idx_eq_ofNat i (lt_of_lt_of_le (lt_of_lt_of_le hi (by omega)) hc31)]
  exact hbuf i hi

/-- Witness for C5: a concrete capacity-8, 8-bit-index queue holding
three elements; popping 2 and pushing 2 behave as characterised. -/
theorem range_ops_copy_exact_witness :
    goodQ 8 8 (⟨fun k => k, 3, 0⟩ : LockFreeQueue ℕ) ∧
      (2 : ℕ) ≤ size 8 (⟨fun k => k, 3, 0⟩ : LockFreeQueue ℕ) ∧
      size 8 (⟨fun k => k, 3, 0⟩ : LockFreeQueue ℕ) + 2 ≤ 8 ∧
      (((pop_range 8 8 (⟨fun k => k, 3, 0⟩ : LockFreeQueue ℕ) (fun _ => 99) 2).1 = true ∧
        (pop_range 8 8 (⟨fun k => k, 3, 0⟩ : LockFreeQueue ℕ) (fun _ => 99) 2).2.1.readCounter =
          (0 + 2) % 2 ^ 8 ∧
        size 8 (pop_range 8 8 (⟨fun k => k, 3, 0⟩ : LockFreeQueue ℕ) (fun _ => 99) 2).2.1 =
          size 8 (⟨fun k => k, 3, 0⟩ : LockFreeQueue ℕ) - 2 ∧
        (∀ i : ℕ, i < 2 → (pop_range 8 8 (⟨fun k => k, 3, 0⟩ : LockFreeQueue ℕ) (fun _ => 99) 2).2.2
          (i : ℤ) = (⟨fun k => k, 3, 0⟩ : LockFreeQueue ℕ).buffer ((0 + i) % 8)) ∧
        (∀ z : ℤ, (∀ i : ℕ, i < 2 → z ≠ (i : ℤ)) →
          (pop_range 8 8 (⟨fun k => k, 3, 0⟩ : LockFreeQueue ℕ) (fun _ => 99) 2).2.2 z = 99)) ∧
      ((push_range 8 8 (⟨fun k => k, 3, 0⟩ : LockFreeQueue ℕ) (fun _ => 77) 2).1 = true ∧
        (push_range 8 8 (⟨fun k => k, 3, 0⟩ : LockFreeQueue ℕ) (fun _ => 77) 2).2.writeCounter =
          (3 + 2) % 2 ^ 8 ∧
        size 8 (push_range 8 8 (⟨fun k => k, 3, 0⟩ : LockFreeQueue ℕ) (fun _ => 77) 2).2 =
          size 8 (⟨fun k => k, 3, 0⟩ : LockFreeQueue ℕ) + 2 ∧
        ∀ i : ℕ, i < 2 → (push_range 8 8 (⟨fun k => k, 3, 0⟩ : LockFreeQueue ℕ) (fun _ => 77) 2).2.buffer
          ((3 + i) % 8) = 77)) :=
  ⟨⟨by norm_num, by norm_num, by decide⟩, by decide, by decide,
    range_ops_copy_exact 8 3 8 rfl (by norm_num) (by norm_num)
      (⟨fun k => k, 3, 0⟩ : LockFreeQueue ℕ) (fun _ => 99) (fun _ => 77) 2 2
      ⟨by norm_num, by norm_num, by decide⟩ (by decide) (by decide)⟩

theorem size_int_formula (w : ℕ) (q : LockFreeQueue α) (hr : q.readCounter < 2 ^ w) :
    (size w q : ℤ) = ((q.writeCounter : ℤ) - (q.readCounter : ℤ)) % (2 ^ w : ℤ) := by
  have h1 : q.readCounter ≤ q.writeCounter + 2 ^ w := by omega
  show (((q.writeCounter + 2 ^ w - q.readCounter) % 2 ^ w : ℕ) : ℤ) = _
  rw [Int.ofNat_emod, Nat.cast_sub h1]
  push_cast
  have e : (q.writeCounter : ℤ) + 2 ^ w - (q.readCounter : ℤ) =
      ((q.writeCounter : ℤ) - (q.readCounter : ℤ)) + 2 ^ w * 1 := by ring
  rw [e, Int.add_mul_emod_self_left]

theorem stepOp_count (cap w : ℕ) [Inhabited α] (t : Trace α) (op : Op α)
    (h : countInv w t) : countInv w (stepOp cap w t op) := by
  obtain ⟨hr, hw, hpp, hmod⟩ := h
  cases op with
  | push xs =>
      simp only [stepOp, push_range]
      by_cases hc : (size w t.q + xs.length) % 2 ^ max w 32 > cap
      · simp only [hc, if_true]
        exact ⟨hr, hw, by simpa using hpp, by simpa using hmod⟩
      · simp only [hc, if_false, if_true]
        refine ⟨?_, ?_, ?_, ?_⟩
        · simpa [pushFold_read] using hr
        · show ((List.range xs.length).foldl (pushStep cap w (listItems xs)) t.q).writeCounter
            < 2 ^ w
          rw [pushFold_writeCounter cap w _ t.q hw]
          exact Nat.mod_lt _ (pow_pos (by norm_num) w)
        · simp only [List.length_append]
          omega
        · show size w ((List.range xs.length).foldl (pushStep cap w (listItems xs)) t.q) ≡ _
            [MOD 2 ^ w]
          rw [pushFold_size cap w _ t.q (le_of_lt hr) hw]
          have e : (t.pushed ++ xs).length - t.popped.length =
              (t.pushed.length - t.popped.length) + xs.length := by
            simp only [List.length_append]
            omega
          rw [e]
          exact (Nat.mod_modEq _ _).trans (hmod.add_right xs.length)
  | pop n =>
      simp only [stepOp, pop_range]
      by_cases hc : n > size w t.q
      · simp only [hc, if_true]
        exact ⟨hr, hw, by simpa using hpp, by simpa using hmod⟩
      · simp only [hc, if_false, if_true]
        have hn : n ≤ size w t.q := le_of_not_lt hc
        have hDn : n ≤ t.pushed.length - t.popped.length := by
          rcases lt_or_ge (t.pushed.length - t.popped.length) (2 ^ w) with hlt | hge
          · have := hmod
            unfold Nat.ModEq at this
            rw [Nat.mod_eq_of_lt (size_lt w t.q), Nat.mod_eq_of_lt hlt] at this
            omega
          · have := size_lt w t.q
            omega
        refine ⟨?_, ?_, ?_, ?_⟩
        · show ((List.range n).foldl (popStep cap w) (t.q, fun _ => default)).1.readCounter
            < 2 ^ w
          rw [popFold_readCounter cap w t.q _ hr]
          exact Nat.mod_lt _ (pow_pos (by norm_num) w)
        · simpa [popFold_write] using hw
        · have e3 : ∀ f : ℤ → α,
              (t.popped ++ (List.range n).map fun (k : ℕ) => f (k : ℤ)).length =
                t.popped.length + n := fun f => by
            rw [List.length_append, List.length_map, List.length_range]
          dsimp only
          rw [e3]
          omega
        · show size w ((List.range n).foldl (popStep cap w) (t.q, fun _ => default)).1 ≡ _
            [MOD 2 ^ w]
          rw [popFold_size cap w t.q _ hr hw n hn]
          have e : t.pushed.length -
              (t.popped ++ (List.range n).map fun (k : ℕ) =>
                ((List.range n).foldl (popStep cap w) (t.q, fun _ => default)).2 (k : ℤ)).length =
              (t.pushed.length - t.popped.length) - n := by
            rw [List.length_append, List.length_map, List.length_range]
            omega
          dsimp only
          rw [e]
          refine Nat.ModEq.add_right_cancel' n ?_
          rw [Nat.sub_add_cancel hn, Nat.sub_add_cancel hDn]
          exact hmod

theorem runFrom_count (cap w : ℕ) [Inhabited α] :
    ∀ (ops : List (Op α)) (t : Trace α), countInv w t →
      countInv w (ops.foldl (stepOp cap w) t)
  | [], _, h => h
  | op :: rest, t, h => by
      rw [List.foldl_cons]
      exact runFrom_count cap w rest _ (stepOp_count cap w t op h)

theorem countInv_init (w : ℕ) [Inhabited α] :
    countInv w (⟨initQ α, [], []⟩ : Trace α) := by
  refine ⟨pow_pos (by norm_num) w, pow_pos (by norm_num) w, le_refl _, ?_⟩
  show size w (initQ α) ≡ 0 [MOD 2 ^ w]
  rw [size_initQ]

/-- Claim C6: `size()` returns exactly the unsigned modular difference
`(writeCounter - readCounter) mod 2 ^ w` for all `w`-bit counter values,
wrapped or not; over any run it equals the true number of in-flight
elements (successfully pushed minus successfully popped) whenever that
number fits in the index type.  (`size` is a pure function of the state,
so it has no side effects by construction.) -/
theorem size_is_modular_difference {α : Type} [Inhabited α] (w : ℕ)
    (q : LockFreeQueue α) (hr : q.readCounter < 2 ^ w) (_hw : q.writeCounter < 2 ^ w)
    (cap : ℕ) (ops : List (Op α)) :
    ((size w q : ℤ) = ((q.writeCounter : ℤ) - (q.readCounter : ℤ)) % (2 ^ w : ℤ) ∧
        size w q < 2 ^ w) ∧
      ((runOps cap w ops).popped.length ≤ (runOps cap w ops).pushed.length ∧
        ((runOps cap w ops).pushed.length - (runOps cap w ops).popped.length < 2 ^ w →
          size w (runOps cap w ops).q =
            (runOps cap w ops).pushed.length - (runOps cap w ops).popped.length)) := by
  have hinv : countInv w (runOps cap w ops) :=
    runFrom_count cap w ops ⟨initQ α, [], []⟩ (countInv_init w)
  obtain ⟨-, -, hpp, hmod⟩ := hinv
  refine ⟨⟨size_int_formula w q hr, size_lt w q⟩, hpp, ?_⟩
  intro hfit
  unfold Nat.ModEq at hmod
  rw [Nat.mod_eq_of_lt (size_lt w _), Nat.mod_eq_of_lt hfit] at hmod
  exact hmod

/-- Witness for C6: 8-bit counters that have wrapped (`write = 5`,
`read = 250`, so six elements are in flight), and a short concrete
run. -/
theorem size_is_modular_difference_witness :
    (250 : ℕ) < 2 ^ 8 ∧ (5 : ℕ) < 2 ^ 8 ∧
      (((size 8 (⟨fun _ => 0, 5, 250⟩ : LockFreeQueue ℕ) : ℤ) =
            ((5 : ℤ) - (250 : ℤ)) % (2 ^ 8 : ℤ) ∧
          size 8 (⟨fun _ => 0, 5, 250⟩ : LockFreeQueue ℕ) < 2 ^ 8) ∧
        ((runOps 8 8 [Op.push [1, 2, 3], Op.pop 1]).popped.length ≤
            (runOps 8 8 [Op.push [1, 2, 3], Op.pop 1]).pushed.length ∧
          ((runOps 8 8 [Op.push [1, 2, 3], Op.pop 1]).pushed.length -
                (runOps 8 8 [Op.push [1, 2, 3], Op.pop 1]).popped.length < 2 ^ 8 →
            size 8 (runOps 8 8 [Op.push [1, 2, 3], Op.pop 1]).q =
              (runOps 8 8 [Op.push [1, 2, 3], Op.pop 1]).pushed.length -
                (runOps 8 8 [Op.push [1, 2, 3], Op.pop 1]).popped.length))) :=
  ⟨by norm_num, by norm_num,
    size_is_modular_difference 8 (⟨fun _ => 0, 5, 250⟩ : LockFreeQueue ℕ)
      (by norm_num) (by norm_num) 8 [Op.push [1, 2, 3], Op.pop 1]⟩

/-- Claim C2 (code bug): the capacity check of `push_range` computes
`size() + length` in 32-bit unsigned arithmetic, which wraps.  On a
capacity-8 queue holding one element (a reachable state), a push of
length `2 ^ 32 - 1` has exact occupancy-plus-count `2 ^ 32 > 8` and must
fail according to the specified check, but the wrapped sum is `0 ≤ 8`,
so the code's check passes and the call returns `true`. -/
theorem push_capacity_check_overflow :
    size 32 qOne + (2 ^ 32 - 1) > 8 ∧
      (push_range 8 32 qOne (fun _ => 7) (2 ^ 32 - 1)).1 = true := by
  constructor
  · decide
  · decide

end LockFreeQueue
